import Mathlib

/-!
Verification development for the dndme combat shell (src/shell.py).

The shell keeps two Python dicts (characters and monsters) of combatants,
instantiates encounter groups into live monsters, and drives an initiative
turn manager.  Python dicts over string keys are embedded as association
lists with first-key lookup and replace-or-append assignment, which matches
dict semantics on the operations the shell uses.  Python integers are
embedded as `Int` (they are unbounded).  The `initiative.py` and `models.py`
modules are imported by src/shell.py but are not part of src/; where a claim
depends on them the definitions are modelled from the spec and say so.
-/

/-- Python `reg.get(k)` on a string-keyed dict embedded as an association
list: the value of the first entry whose key is `k`. -/
def dictGet {α : Type} (reg : List (String × α)) (k : String) : Option α :=
  match reg with
  | [] => none
  | (k0, v) :: rest => if k0 = k then some v else dictGet rest k

/-- Python `reg[k] = v` on a dict embedded as an association list: replace
the value of the first entry with key `k`, or append a new entry. -/
def dictInsert {α : Type} (k : String) (v : α) : List (String × α) → List (String × α)
  | [] => [(k, v)]
  | (k0, v0) :: rest =>
      if k0 = k then (k0, v) :: rest else (k0, v0) :: dictInsert k v rest

/-- The association list has pairwise distinct keys (always true of a list
embedding an actual Python dict). -/
def nodupKeys {α : Type} (reg : List (String × α)) : Prop :=
  (reg.map Prod.fst).Nodup

/-- How many entries of the association list carry key `k`. -/
def countKey {α : Type} (reg : List (String × α)) (k : String) : Nat :=
  (reg.filter (fun p => p.1 == k)).length

/-- Modelled from the spec: the Monster data shape of models.py (models.py is
not under src/).  §3: `name`, the template's intrinsic default hit points
(`_max_hp` in source terms), and the mutable `max_hp` / `cur_hp` fields.
Stats that play no role in the claims (armor class, perception, status,
initiative bonus) are omitted.  `max_hp`/`cur_hp` are unconditionally
overwritten by shell.py lines 162-168 before any use. -/
structure Monster where
  name : String
  default_hp : Int
  max_hp : Int
  cur_hp : Int
deriving Repr, DecidableEq

/-- Modelled from the spec: the Character data shape of models.py (not under
src/), restricted to the fields the verified claims touch. -/
structure Character where
  name : String
  max_hp : Int
  cur_hp : Int
deriving Repr, DecidableEq

/-- The session state of shell.py (`GameState`): the two name-keyed combatant
registries.  `encounter` and `tm` are carried separately where needed. -/
structure GameState where
  characters : List (String × Character)
  monsters : List (String × Monster)
deriving Repr, DecidableEq

/-- shell.py lines 261-271 after the amount has been parsed: resolve the
target in the character registry first, then the monster registry
(`self.game.characters.get(target_name) or self.game.monsters.get(target_name)`),
and subtract `amount` from its `cur_hp` with no clamping.  The Bool is true
when a target was found; on `none` the command prints "Invalid target" and
returns with the state untouched. -/
def Damage.do_command (g : GameState) (target_name : String) (amount : Int) :
    GameState × Bool :=
  match dictGet g.characters target_name with
  | some c =>
      ({ g with characters :=
          dictInsert target_name { c with cur_hp := c.cur_hp - amount } g.characters },
       true)
  | none =>
      match dictGet g.monsters target_name with
      | some m =>
          ({ g with monsters :=
              dictInsert target_name { m with cur_hp := m.cur_hp - amount } g.monsters },
           true)
      | none => (g, false)

/-- shell.py lines 278-288: identical to `Damage.do_command` with
`cur_hp += amount`. -/
def Heal.do_command (g : GameState) (target_name : String) (amount : Int) :
    GameState × Bool :=
  match dictGet g.characters target_name with
  | some c =>
      ({ g with characters :=
          dictInsert target_name { c with cur_hp := c.cur_hp + amount } g.characters },
       true)
  | none =>
      match dictGet g.monsters target_name with
      | some m =>
          ({ g with monsters :=
              dictInsert target_name { m with cur_hp := m.cur_hp + amount } g.monsters },
           true)
      | none => (g, false)

/-- The current hit points of the combatant that damage/heal would resolve
`name` to: character registry first, monster registry second. -/
def getCurHp (g : GameState) (name : String) : Option Int :=
  match dictGet g.characters name with
  | some c => some c.cur_hp
  | none => (dictGet g.monsters name).map Monster.cur_hp

/-- A monster template as parsed from a monsters/*.toml file: its species
name and intrinsic default hit points (spec §3 MonsterTemplate). -/
structure MonsterTemplate where
  name : String
  default_hp : Int
deriving Repr, DecidableEq

/-- An encounter group descriptor (spec §3): the referenced template name,
the instance count, and the optional per-instance `max_hp` override list. -/
structure EncGroup where
  monster : String
  count : Nat
  max_hp : Option (List Int)
deriving Repr, DecidableEq

/-- Python `s.isdigit()` for the ASCII strings the shell reads: nonempty and
made of decimal digits only. -/
def isDigits (s : String) : Bool :=
  !s.data.isEmpty && s.data.all Char.isDigit

/-- Decimal value of a digit list, most significant digit first. -/
def digitsToNat (cs : List Char) (acc : Nat) : Nat :=
  match cs with
  | [] => acc
  | c :: rest => digitsToNat rest (acc * 10 + (c.toNat - '0'.toNat))

/-- Python `int(s)` guarded by `s.isdigit()`: the decimal value of a digit
string, `none` when `isdigit` fails. -/
def parseDigits (s : String) : Option Nat :=
  if isDigits s then some (digitsToNat s.data 0) else none

/-- Python `int(s)` on a literal: optional sign followed by digits; `none`
models the ValueError raise. -/
def pyInt (s : String) : Option Int :=
  match s.data with
  | [] => none
  | '-' :: rest =>
      if !rest.isEmpty && rest.all Char.isDigit then
        some (-(digitsToNat rest 0 : Int))
      else none
  | '+' :: rest =>
      if !rest.isEmpty && rest.all Char.isDigit then
        some ((digitsToNat rest 0 : Int))
      else none
  | cs =>
      if cs.all Char.isDigit then some ((digitsToNat cs 0 : Int)) else none

/-- shell.py lines 155-160: scan the template files and take the first whose
`name` equals the group's `monster` reference (the loop breaks on the first
match). -/
def findTemplate (templates : List MonsterTemplate) (ref : String) :
    Option MonsterTemplate :=
  match templates with
  | [] => none
  | t :: rest => if t.name = ref then some t else findTemplate rest ref

/-- `Monster(**monster)` at shell.py line 159: a fresh instance from the
template.  Its `max_hp`/`cur_hp` are unconditionally overwritten at lines
162-168, so their initial values are immaterial; they start at the default. -/
def Monster.ofTemplate (t : MonsterTemplate) : Monster :=
  { name := t.name, default_hp := t.default_hp,
    max_hp := t.default_hp, cur_hp := t.default_hp }

/-- shell.py lines 155-160: `count` fresh instances of the first matching
template, or no instances when no template matches. -/
def instantiateGroup (templates : List MonsterTemplate) (group : EncGroup) :
    List Monster :=
  match findTemplate templates group.monster with
  | none => []
  | some t => List.replicate group.count (Monster.ofTemplate t)

/-- Python `name[0].islower()` for the nonempty ASCII names the shell deals
with (on an empty name Python would raise IndexError; claims about naming
therefore assume a nonempty template name). -/
def startsLower (s : String) : Bool :=
  match s.data with
  | [] => false
  | c :: _ => c.isLower

/-- The body of the loop at shell.py lines 162-171 for index `i`, where `n`
is `len(monsters)`: assign hit points (the override list is used only when
its length equals the number of instances), then append the 1-based ordinal
to the name when the species name starts lowercase. -/
def processMonster (group : EncGroup) (n i : Nat) (m : Monster) : Monster :=
  let m1 :=
    match group.max_hp with
    | some hps =>
        if hps.length = n then
          { m with max_hp := hps.getD i 0, cur_hp := hps.getD i 0 }
        else
          { m with max_hp := m.default_hp, cur_hp := m.default_hp }
    | none => { m with max_hp := m.default_hp, cur_hp := m.default_hp }
  if startsLower m1.name then { m1 with name := m1.name ++ toString (i + 1) } else m1

/-- The loop at shell.py lines 162-172 from index `i` on: finalize each
instance and insert it into the registry keyed by its (possibly renamed)
name.  Returns the finalized instances in order together with the updated
registry. -/
def registerFrom (group : EncGroup) (n i : Nat) (ms : List Monster)
    (reg : List (String × Monster)) : List Monster × List (String × Monster) :=
  match ms with
  | [] => ([], reg)
  | m :: rest =>
      let m1 := processMonster group n i m
      let res := registerFrom group n (i + 1) rest (dictInsert m1.name m1 reg)
      (m1 :: res.1, res.2)

/-- shell.py lines 151-172 for a single encounter group: instantiate from
the template list, then finalize and register every instance. -/
def load_group (templates : List MonsterTemplate) (group : EncGroup)
    (reg : List (String × Monster)) : List Monster × List (String × Monster) :=
  let ms := instantiateGroup templates group
  registerFrom group ms.length 0 ms reg

/-- The last finalized instance carrying a given name, if any. -/
def lastNamed (ms : List Monster) (name : String) : Option Monster :=
  (ms.filter (fun m => m.name == name)).getLast?

/-- An encounter file's header data (spec §3); the groups play no role in
encounter selection. -/
structure Encounter where
  name : String
  location : String
  groups : List (String × EncGroup)
deriving Repr, DecidableEq

/-- Outcome of the encounter-selection prompt, shell.py lines 130-148. -/
inductive LoadResult where
  | noEncounters
  | invalidPick
  | indexError
  | loaded (e : Encounter)
deriving Repr, DecidableEq

/-- shell.py lines 130-148: read the selection, reject non-digit input
(`pick.isdigit()`, embedded as `parseDigits`), subtract one, reject `pick < 0 or pick > len(encounters)`
— note `>` rather than `>=` — and index into the list.  `indexError` marks
the uncaught Python IndexError raised when the index equals the list length;
main_loop (lines 303-317) catches only EOFError and KeyboardInterrupt, so
that exception terminates the session. -/
def pickEncounter (encounters : List Encounter) (pick : String) : LoadResult :=
  if encounters.isEmpty then .noEncounters
  else
    match parseDigits pick with
    | none => .invalidPick
    | some v =>
        let idx : Int := (v : Int) - 1
        if idx < 0 ∨ idx > (encounters.length : Int) then .invalidPick
        else
          match encounters[idx.toNat]? with
          | some e => .loaded e
          | none => .indexError

/-- How a command invocation ends: a normal return (possibly after printing
an error message), or an exception that main_loop (shell.py lines 303-317)
does not catch and that therefore terminates the session. -/
inductive CommandOutcome where
  | normal (g : GameState)
  | exn (g : GameState)
deriving Repr, DecidableEq

/-- shell.py lines 261-271 as dispatched by main_loop with raw string
arguments: `int(args[1])` is unguarded, so a non-numeric amount raises
ValueError (and missing arguments raise IndexError), neither of which
main_loop catches. -/
def damageCommand (g : GameState) (args : List String) : CommandOutcome :=
  match args with
  | target_name :: amountStr :: _ =>
      match pyInt amountStr with
      | none => .exn g
      | some amount => .normal (Damage.do_command g target_name amount).1
  | _ => .exn g

/-- A concrete session with one character at 5/10 hit points, for the
spec's no-clamping example. -/
def gAlice : GameState :=
  { characters := [("alice", { name := "alice", max_hp := 10, cur_hp := 5 })],
    monsters := [] }

/-- A concrete encounter header used to exercise encounter selection. -/
def encCave : Encounter :=
  { name := "Cave", location := "hills", groups := [] }

/-- Modelled from the spec: the Turn Manager's `add_combatant` (initiative.py
is not under src/).  §4.2: "inserts `combatant` into the group for
`rollValue` (creating the group if absent)".  The manager state is the list
of (roll, combatants) groups in creation order; combatants within a group
are kept in insertion order. -/
def add_combatant (roll : Int) (c : String) :
    List (Int × List String) → List (Int × List String)
  | [] => [(roll, [c])]
  | (r, g) :: rest =>
      if r = roll then (r, g ++ [c]) :: rest
      else (r, g) :: add_combatant roll c rest

/-- Add a list of (combatant, roll) pairs in order, as Start.do_command
(shell.py lines 221-234) does for every monster and character. -/
def addAll (s : List (Int × List String)) (pairs : List (String × Int)) :
    List (Int × List String) :=
  pairs.foldl (fun s p => add_combatant p.2 p.1 s) s

/-- Insert a group into a list of groups sorted by descending roll value. -/
def insertDesc (p : Int × List String) :
    List (Int × List String) → List (Int × List String)
  | [] => [p]
  | q :: rest => if q.1 ≤ p.1 then p :: q :: rest else q :: insertDesc p rest

/-- Insertion sort by descending roll value; group keys are pairwise
distinct, so ties between keys cannot arise. -/
def sortDesc : List (Int × List String) → List (Int × List String)
  | [] => []
  | p :: rest => insertDesc p (sortDesc rest)

/-- Modelled from the spec: `computeTurnOrder` (initiative.py is not under
src/).  §4.2: "descending sort by roll value, stable grouping of ties,
stable insertion order within a tie". -/
def computeTurnOrder (pairs : List (String × Int)) : List (Int × List String) :=
  sortDesc (addAll [] pairs)

/-- The combatants added with roll `r`, in the order they were added. -/
def groupOf (r : Int) (pairs : List (String × Int)) : List String :=
  (pairs.filter (fun p => p.2 == r)).map Prod.fst

/-- The group stored for roll `r` in a manager state or turn order. -/
def findGroup (r : Int) : List (Int × List String) → Option (List String)
  | [] => none
  | (r0, g) :: rest => if r0 = r then some g else findGroup r rest

/-- A yielded turn: (round number, initiative roll, combatant). -/
abbrev Turn := Nat × Int × String

/-- Modelled from the spec: the Turn Manager's cursor state (§3 TurnCursor),
represented as the current round number together with the (roll, combatant)
events still to be yielded in this round. -/
structure TurnCursor where
  round : Nat
  remaining : List (Int × String)
deriving Repr, DecidableEq

/-- One round's worth of turn events: every entry of the turn order in
descending roll order, and within an entry its combatants in stored order. -/
def flattenOrder : List (Int × List String) → List (Int × String)
  | [] => []
  | (r, g) :: rest => g.map (fun c => (r, c)) ++ flattenOrder rest

/-- Modelled from the spec: one advance of `generateTurns` (initiative.py is
not under src/).  §4.2: "iterate every entry of TurnOrder in descending roll
order; within an entry, iterate its combatants in their stored order; after
the last combatant of the last entry, increment `round` and restart from the
first entry".  The round counter starts at 0 and is incremented each time a
fresh pass begins, so the first pass is round 1.  On an empty order the
sequence never yields (spec §7 leaves this case open). -/
def stepTurns (order : List (Int × List String)) (cur : TurnCursor) :
    TurnCursor × Option Turn :=
  match cur.remaining with
  | (r, c) :: rest => ({ round := cur.round, remaining := rest }, some (cur.round, r, c))
  | [] =>
      match flattenOrder order with
      | [] => (cur, none)
      | (r, c) :: rest =>
          ({ round := cur.round + 1, remaining := rest }, some (cur.round + 1, r, c))

/-- The cursor after `k` advances, starting before round 1. -/
def cursorAfter (order : List (Int × List String)) : Nat → TurnCursor
  | 0 => { round := 0, remaining := [] }
  | k + 1 => (stepTurns order (cursorAfter order k)).1

/-- The triple yielded by the `k`-th advance (1-based), `none` for `k = 0`
or when the order is empty. -/
def nthAdvance (order : List (Int × List String)) : Nat → Option Turn
  | 0 => none
  | k + 1 => (stepTurns order (cursorAfter order k)).2

/-- The turn order of the spec's scenario: C rolled 20, A and B rolled 15. -/
def ordABC : List (Int × List String) := [(20, ["C"]), (15, ["A", "B"])]

/-- A wolf template, for the spec's max_hp override example. -/
def tWolf : MonsterTemplate := { name := "wolf", default_hp := 11 }

/-- The spec's override example group: two wolves at 12 and 9 hit points. -/
def gWolf : EncGroup := { monster := "wolf", count := 2, max_hp := some [12, 9] }

/-- A goblin template, for the spec's naming example. -/
def tGoblin : MonsterTemplate := { name := "goblin", default_hp := 7 }

/-- The spec's naming example group: three goblins, no override. -/
def gGoblin : EncGroup := { monster := "goblin", count := 3, max_hp := none }

/-- A proper-named template, for the collision example. -/
def tChief : MonsterTemplate := { name := "Orc Chieftain", default_hp := 30 }

/-- A proper-named group with count 2, whose instances collide in the
registry. -/
def gChief : EncGroup := { monster := "Orc Chieftain", count := 2, max_hp := none }

/-- A session in which the name "rex" is present in both registries. -/
def gShared : GameState :=
  { characters := [("rex", { name := "rex", max_hp := 10, cur_hp := 7 })],
    monsters := [("rex", { name := "rex", default_hp := 20, max_hp := 20, cur_hp := 20 })] }

/-- Dict lookup after dict assignment: the assigned key reads back the new
value, every other key is untouched (first-occurrence replacement keeps
lookups of other keys intact even on degenerate lists). -/
theorem dictGet_dictInsert {α : Type} (k k' : String) (v : α)
    (reg : List (String × α)) :
    dictGet (dictInsert k v reg) k' = if k = k' then some v else dictGet reg k' := by
  induction reg with
  | nil => simp [dictInsert, dictGet]
  | cons p rest ih =>
      obtain ⟨k0, v0⟩ := p
      by_cases h0 : k0 = k
      · subst h0
        by_cases h1 : k0 = k' <;> simp [dictInsert, dictGet, h1]
      · by_cases h1 : k0 = k'
        · subst h1
          have h2 : ¬ k = k0 := fun h => h0 h.symm
          simp [dictInsert, dictGet, h0, h2]
        · simp [dictInsert, dictGet, h0, h1, ih]

/-- C5: apply-damage sets cur_hp to cur_hp minus the amount and apply-heal
sets it to cur_hp plus the amount, for any integer amount and whichever
registry resolves the target, with no clamping to [0, max_hp]; in
particular a character at 5 hit points damaged by 20 ends at -15. -/
theorem damage_heal_unclamped (g : GameState) (name : String) (amount : Int) :
    getCurHp (Damage.do_command g name amount).1 name
      = (getCurHp g name).map (fun hp => hp - amount) ∧
    getCurHp (Heal.do_command g name amount).1 name
      = (getCurHp g name).map (fun hp => hp + amount) ∧
    getCurHp (Damage.do_command gAlice "alice" 20).1 "alice" = some (-15) := by
  refine ⟨?_, ?_, by decide⟩ <;>
  · rcases hc : dictGet g.characters name with _ | c
    · rcases hm : dictGet g.monsters name with _ | m <;>
        simp [Damage.do_command, Heal.do_command, getCurHp, hc, hm, dictGet_dictInsert]
    · simp [Damage.do_command, Heal.do_command, getCurHp, hc, dictGet_dictInsert]

/-- C8: when the target name is found in neither registry, damage and heal
report the failure (flag false) and return the session state entirely
unchanged. -/
theorem invalid_target_unchanged (g : GameState) (name : String) (amount : Int)
    (hc : dictGet g.characters name = none) (hm : dictGet g.monsters name = none) :
    Damage.do_command g name amount = (g, false) ∧
    Heal.do_command g name amount = (g, false) := by
  simp [Damage.do_command, Heal.do_command, hc, hm]

/-- Witness for C8: an unknown name in a session with empty registries. -/
theorem invalid_target_unchanged_witness :
    dictGet (GameState.mk [] []).characters "bob" = none ∧
    dictGet (GameState.mk [] []).monsters "bob" = none ∧
    Damage.do_command (GameState.mk [] []) "bob" 3 = (GameState.mk [] [], false) ∧
    Heal.do_command (GameState.mk [] []) "bob" 3 = (GameState.mk [] [], false) := by
  refine ⟨rfl, rfl, ?_, ?_⟩
  · exact (invalid_target_unchanged (GameState.mk [] []) "bob" 3 rfl rfl).1
  · exact (invalid_target_unchanged (GameState.mk [] []) "bob" 3 rfl rfl).2

/-- C10: when a name is present in both registries, damage and heal resolve
it to the character (the character registry is consulted first); the monster
registry is left untouched. -/
theorem shared_name_hits_character (g : GameState) (name : String) (amount : Int)
    (c : Character) (m : Monster)
    (hc : dictGet g.characters name = some c)
    (hm : dictGet g.monsters name = some m) :
    (Damage.do_command g name amount).1.monsters = g.monsters ∧
    dictGet (Damage.do_command g name amount).1.characters name
      = some { c with cur_hp := c.cur_hp - amount } ∧
    (Heal.do_command g name amount).1.monsters = g.monsters ∧
    dictGet (Heal.do_command g name amount).1.characters name
      = some { c with cur_hp := c.cur_hp + amount } := by
  simp [Damage.do_command, Heal.do_command, hc, dictGet_dictInsert]

/-- Witness for C10: the session in which "rex" names both a character and a
monster; damaging rex by 4 hurts the character only. -/
theorem shared_name_hits_character_witness :
    dictGet gShared.characters "rex" = some { name := "rex", max_hp := 10, cur_hp := 7 } ∧
    dictGet gShared.monsters "rex"
      = some { name := "rex", default_hp := 20, max_hp := 20, cur_hp := 20 } ∧
    ((Damage.do_command gShared "rex" 4).1.monsters = gShared.monsters ∧
     dictGet (Damage.do_command gShared "rex" 4).1.characters "rex"
       = some { name := "rex", max_hp := 10, cur_hp := 3 } ∧
     (Heal.do_command gShared "rex" 4).1.monsters = gShared.monsters ∧
     dictGet (Heal.do_command gShared "rex" 4).1.characters "rex"
       = some { name := "rex", max_hp := 10, cur_hp := 11 }) := by
  refine ⟨rfl, rfl, ?_⟩
  exact shared_name_hits_character gShared "rex" 4
    { name := "rex", max_hp := 10, cur_hp := 7 }
    { name := "rex", default_hp := 20, max_hp := 20, cur_hp := 20 } rfl rfl

/-- The finalization loop yields exactly one finalized instance per
instantiated monster. -/
theorem registerFrom_fst_length (group : EncGroup) (n : Nat) :
    ∀ (ms : List Monster) (i : Nat) (reg : List (String × Monster)),
      (registerFrom group n i ms reg).1.length = ms.length := by
  intro ms
  induction ms with
  | nil => intro i reg; rfl
  | cons m rest ih => intro i reg; simp [registerFrom, ih]

/-- The j-th finalized instance is the j-th instantiated monster processed
at loop index i + j. -/
theorem registerFrom_fst_get (group : EncGroup) (n : Nat) :
    ∀ (ms : List Monster) (i j : Nat) (reg : List (String × Monster)),
      (registerFrom group n i ms reg).1[j]?
        = ms[j]?.map (fun m => processMonster group n (i + j) m) := by
  intro ms
  induction ms with
  | nil => intro i j reg; simp [registerFrom]
  | cons m rest ih =>
      intro i j reg
      cases j with
      | zero => simp [registerFrom]
      | succ j0 =>
          have e : i + 1 + j0 = i + (j0 + 1) := by omega
          simp [registerFrom, ih, e]

/-- Every finalized instance arises by processing one of the instantiated
monsters at some loop index. -/
theorem registerFrom_fst_mem (group : EncGroup) (n : Nat) :
    ∀ (ms : List Monster) (i : Nat) (reg : List (String × Monster)) (x : Monster),
      x ∈ (registerFrom group n i ms reg).1 →
      ∃ i0 m, m ∈ ms ∧ x = processMonster group n i0 m := by
  intro ms
  induction ms with
  | nil => intro i reg x hx; simp [registerFrom] at hx
  | cons m rest ih =>
      intro i reg x hx
      simp only [registerFrom, List.mem_cons] at hx
      rcases hx with h | h
      · exact ⟨i, m, List.mem_cons_self m rest, h⟩
      · obtain ⟨i0, m0, hm0, he⟩ := ih (i + 1) _ x h
        exact ⟨i0, m0, List.mem_cons_of_mem m hm0, he⟩

/-- The registry produced by the finalization loop is the fold of dict
assignments of the finalized instances over the incoming registry. -/
theorem registerFrom_snd_foldl (group : EncGroup) (n : Nat) :
    ∀ (ms : List Monster) (i : Nat) (reg : List (String × Monster)),
      (registerFrom group n i ms reg).2
        = (registerFrom group n i ms reg).1.foldl
            (fun r m => dictInsert m.name m r) reg := by
  intro ms
  induction ms with
  | nil => intro i reg; rfl
  | cons m rest ih => intro i reg; simp [registerFrom, ih]

/-- The last filtered element of a cons, by cases on the head's match. -/
theorem lastNamed_cons (x : Monster) (l : List Monster) (name : String) :
    lastNamed (x :: l) name
      = match lastNamed l name with
        | some y => some y
        | none => if x.name == name then some x else none := by
  unfold lastNamed
  rcases hf : l.filter (fun m => m.name == name) with _ | ⟨y, t⟩
  · cases hx : (x.name == name) <;> simp [List.filter_cons, hx, hf]
  · rcases hg : (y :: t).getLast? with _ | z
    · simp at hg
    · cases hx : (x.name == name) <;>
        simp [List.filter_cons, hx, hf, List.getLast?_cons_cons, hg]

/-- Looking a name up after folding dict assignments of a list of monsters:
the last monster of the list with that name wins; a name none of them
carries still reads its old value. -/
theorem dictGet_foldl_insert :
    ∀ (ms : List Monster) (reg : List (String × Monster)) (name : String),
      dictGet (ms.foldl (fun r m => dictInsert m.name m r) reg) name
        = match lastNamed ms name with
          | some m => some m
          | none => dictGet reg name := by
  intro ms
  induction ms with
  | nil => intro reg name; simp [lastNamed]
  | cons m rest ih =>
      intro reg name
      simp only [List.foldl_cons]
      rw [ih, lastNamed_cons]
      cases h : lastNamed rest name with
      | some y => simp
      | none =>
          simp only []
          rw [dictGet_dictInsert]
          cases hb : (m.name == name) with
          | true =>
              have : m.name = name := by simpa using hb
              simp [this]
          | false =>
              have : ¬ m.name = name := by simpa using hb
              simp [this]

/-- Dict assignment either keeps the key list (key already present) or
appends the new key at the end. -/
theorem keys_dictInsert {α : Type} (k : String) (v : α) :
    ∀ reg : List (String × α),
      (dictInsert k v reg).map Prod.fst
        = if k ∈ reg.map Prod.fst then reg.map Prod.fst
          else reg.map Prod.fst ++ [k] := by
  intro reg
  induction reg with
  | nil => simp [dictInsert]
  | cons p rest ih =>
      obtain ⟨k0, v0⟩ := p
      by_cases h0 : k0 = k
      · subst h0; simp [dictInsert]
      · have h1 : ¬ k = k0 := fun h => h0 h.symm
        by_cases h2 : k ∈ rest.map Prod.fst <;>
          simp [dictInsert, h0, h1, h2, ih]

/-- Dict assignment preserves distinctness of keys. -/
theorem nodupKeys_dictInsert {α : Type} (k : String) (v : α)
    (reg : List (String × α)) (h : nodupKeys reg) :
    nodupKeys (dictInsert k v reg) := by
  unfold nodupKeys at h ⊢
  rw [keys_dictInsert]
  by_cases hk : k ∈ reg.map Prod.fst
  · simpa [hk] using h
  · simp only [hk, if_false]
    rw [List.nodup_append]
    exact ⟨h, List.nodup_singleton k, by simpa using hk⟩

/-- The finalization loop preserves distinctness of registry keys. -/
theorem nodupKeys_registerFrom (group : EncGroup) (n : Nat) :
    ∀ (ms : List Monster) (i : Nat) (reg : List (String × Monster)),
      nodupKeys reg → nodupKeys (registerFrom group n i ms reg).2 := by
  intro ms
  induction ms with
  | nil => intro i reg h; exact h
  | cons m rest ih =>
      intro i reg h
      simp only [registerFrom]
      exact ih (i + 1) _ (nodupKeys_dictInsert _ _ _ h)

/-- A key absent from the key list is carried by no entry. -/
theorem countKey_eq_zero {α : Type} (k : String) :
    ∀ reg : List (String × α), k ∉ reg.map Prod.fst → countKey reg k = 0 := by
  intro reg
  induction reg with
  | nil => intro h; rfl
  | cons p rest ih =>
      obtain ⟨k0, v0⟩ := p
      intro h
      simp only [List.map_cons, List.mem_cons] at h
      push_neg at h
      have hne : ¬ k0 = k := fun hh => h.1 hh.symm
      have hk0 : (k0 == k) = false := by simp [hne]
      simp [countKey, List.filter_cons, hk0]
      simpa [countKey] using ih h.2

/-- With distinct keys, a key that resolves carries exactly one entry. -/
theorem countKey_eq_one {α : Type} (k : String) (v : α) :
    ∀ reg : List (String × α),
      nodupKeys reg → dictGet reg k = some v → countKey reg k = 1 := by
  intro reg
  induction reg with
  | nil => intro _ h; simp [dictGet] at h
  | cons p rest ih =>
      obtain ⟨k0, v0⟩ := p
      intro hnd hget
      unfold nodupKeys at hnd
      simp only [List.map_cons, List.nodup_cons] at hnd
      by_cases h0 : k0 = k
      · subst h0
        have hz : countKey rest k0 = 0 := countKey_eq_zero k0 rest hnd.1
        have : (k0 == k0) = true := by simp
        simp [countKey, List.filter_cons, this]
        simpa [countKey] using hz
      · have hb : (k0 == k) = false := by simp [h0]
        have hget0 : dictGet rest k = some v := by
          simpa [dictGet, h0] using hget
        simp [countKey, List.filter_cons, hb]
        simpa [countKey] using ih hnd.2 hget0

/-- Finalizing never changes a monster's name except for the lowercase
ordinal suffix rule. -/
theorem processMonster_name (group : EncGroup) (n i : Nat) (m : Monster) :
    (processMonster group n i m).name
      = if startsLower m.name then m.name ++ toString (i + 1) else m.name := by
  obtain ⟨mon, cnt, mx⟩ := group
  cases mx with
  | none => cases h : startsLower m.name <;> simp [processMonster, h]
  | some hps =>
      by_cases hl : hps.length = n <;>
        cases h : startsLower m.name <;> simp [processMonster, hl, h]

/-- Hit points with no override list: the intrinsic default for both
fields. -/
theorem processMonster_hp_none (group : EncGroup) (n i : Nat) (m : Monster)
    (hmx : group.max_hp = none) :
    (processMonster group n i m).max_hp = m.default_hp ∧
    (processMonster group n i m).cur_hp = m.default_hp := by
  obtain ⟨mon, cnt, mx⟩ := group
  change mx = none at hmx
  subst hmx
  cases h : startsLower m.name <;> simp [processMonster, h]

/-- Hit points with an override list of matching length: the i-th override
entry for both fields. -/
theorem processMonster_hp_override (group : EncGroup) (n i : Nat) (m : Monster)
    (hps : List Int) (hmx : group.max_hp = some hps) (hl : hps.length = n) :
    (processMonster group n i m).max_hp = hps.getD i 0 ∧
    (processMonster group n i m).cur_hp = hps.getD i 0 := by
  obtain ⟨mon, cnt, mx⟩ := group
  change mx = some hps at hmx
  subst hmx
  cases h : startsLower m.name <;> simp [processMonster, hl, h]

/-- Hit points with an override list of the wrong length: the intrinsic
default for both fields. -/
theorem processMonster_hp_mismatch (group : EncGroup) (n i : Nat) (m : Monster)
    (hps : List Int) (hmx : group.max_hp = some hps) (hl : ¬ hps.length = n) :
    (processMonster group n i m).max_hp = m.default_hp ∧
    (processMonster group n i m).cur_hp = m.default_hp := by
  obtain ⟨mon, cnt, mx⟩ := group
  change mx = some hps at hmx
  subst hmx
  cases h : startsLower m.name <;> simp [processMonster, hl, h]

/-- C6: an encounter group whose monster reference matches no available
template yields zero monster instances and leaves the monster registry
exactly as it was, with no failure raised. -/
theorem unknown_template_yields_nothing (templates : List MonsterTemplate)
    (group : EncGroup) (reg : List (String × Monster))
    (ht : findTemplate templates group.monster = none) :
    load_group templates group reg = ([], reg) := by
  simp [load_group, instantiateGroup, ht, registerFrom]

/-- Witness for C6: a group referencing "wolf" against a template list that
only offers a goblin. -/
theorem unknown_template_yields_nothing_witness :
    findTemplate [tGoblin] gWolf.monster = none ∧
    load_group [tGoblin] gWolf [] = ([], []) := by
  refine ⟨by decide, ?_⟩
  exact unknown_template_yields_nothing [tGoblin] gWolf [] (by decide)

/-- C7 (evidence for the code bug): a non-numeric damage amount makes
`int(args[1])` raise an uncaught ValueError, and an encounter selection one
past the list length slips through the `pick > len(encounters)` guard and
raises an uncaught IndexError — main_loop catches neither, so the session
dies instead of reporting and continuing; by contrast a non-numeric or
low/high-by-two selection is correctly reported and aborted with the state
unchanged. -/
theorem malformed_input_crash_evidence :
    damageCommand gAlice ["alice", "xyz"] = CommandOutcome.exn gAlice ∧
    pickEncounter [encCave] "2" = LoadResult.indexError ∧
    pickEncounter [encCave] "x" = LoadResult.invalidPick ∧
    pickEncounter [encCave] "0" = LoadResult.invalidPick ∧
    pickEncounter [encCave] "3" = LoadResult.invalidPick ∧
    pickEncounter [encCave] "1" = LoadResult.loaded encCave := by
  refine ⟨?_, ?_, ?_, ?_, ?_, ?_⟩ <;> decide

/-- C3: when the group's template is found, the i-th instance receives
max_hp[i] as both max_hp and cur_hp exactly when an override list of length
equal to the instance count is given, and the template's intrinsic default
for both otherwise.  (A nonempty template name is assumed: on an empty name
the Python loop would die at the renaming step instead.) -/
theorem hp_assignment (templates : List MonsterTemplate) (group : EncGroup)
    (reg : List (String × Monster)) (t : MonsterTemplate) (i : Nat)
    (ht : findTemplate templates group.monster = some t)
    (hne : t.name ≠ "")
    (hi : i < group.count) :
    (load_group templates group reg).1.length = group.count ∧
    ((load_group templates group reg).1[i]?.map Monster.max_hp,
     (load_group templates group reg).1[i]?.map Monster.cur_hp)
      = match group.max_hp with
        | some hps =>
            if hps.length = group.count then (hps[i]?, hps[i]?)
            else (some t.default_hp, some t.default_hp)
        | none => (some t.default_hp, some t.default_hp) := by
  have hms : instantiateGroup templates group
      = List.replicate group.count (Monster.ofTemplate t) := by
    simp [instantiateGroup, ht]
  refine ⟨by simp [load_group, hms, registerFrom_fst_length], ?_⟩
  have hget : (load_group templates group reg).1[i]?
      = some (processMonster group group.count i (Monster.ofTemplate t)) := by
    simp [load_group, hms, registerFrom_fst_get, List.getElem?_replicate, hi]
  rw [hget]
  have hd : (Monster.ofTemplate t).default_hp = t.default_hp := rfl
  rcases hmx : group.max_hp with _ | hps
  · obtain ⟨h1, h2⟩ := processMonster_hp_none group group.count i (Monster.ofTemplate t) hmx
    rw [hd] at h1 h2
    simp only [Option.map_some', h1, h2, Prod.mk.injEq, and_self]
  · by_cases hl : hps.length = group.count
    · obtain ⟨h1, h2⟩ :=
        processMonster_hp_override group group.count i (Monster.ofTemplate t) hps hmx hl
      have hilt : i < hps.length := by omega
      have hsome : hps[i]? = some (hps.getD i 0) := by
        rw [List.getElem?_eq_getElem hilt, List.getD_eq_getElem?_getD,
            List.getElem?_eq_getElem hilt]
        rfl
      simp only [Option.map_some', h1, h2, hsome, if_pos hl, Prod.mk.injEq, and_self]
    · obtain ⟨h1, h2⟩ :=
        processMonster_hp_mismatch group group.count i (Monster.ofTemplate t) hps hmx hl
      rw [hd] at h1 h2
      simp only [Option.map_some', h1, h2, if_neg hl, Prod.mk.injEq, and_self]

/-- Witness for C3: the spec's wolf group, override [12, 9], at index 1. -/
theorem hp_assignment_witness :
    findTemplate [tWolf] gWolf.monster = some tWolf ∧
    tWolf.name ≠ "" ∧
    1 < gWolf.count ∧
    ((load_group [tWolf] gWolf []).1.length = gWolf.count ∧
     ((load_group [tWolf] gWolf []).1[1]?.map Monster.max_hp,
      (load_group [tWolf] gWolf []).1[1]?.map Monster.cur_hp)
       = match gWolf.max_hp with
         | some hps =>
             if hps.length = gWolf.count then (hps[1]?, hps[1]?)
             else (some tWolf.default_hp, some tWolf.default_hp)
         | none => (some tWolf.default_hp, some tWolf.default_hp)) := by
  refine ⟨by decide, by decide, by decide, ?_⟩
  exact hp_assignment [tWolf] gWolf [] tWolf 1 (by decide) (by decide) (by decide)

/-- C4: when the group's template is found and its name is nonempty, the
i-th instance is named with the 1-based ordinal appended exactly when the
template name starts with a lowercase character, and keeps the template
name unchanged otherwise. -/
theorem instance_naming (templates : List MonsterTemplate) (group : EncGroup)
    (reg : List (String × Monster)) (t : MonsterTemplate) (i : Nat)
    (ht : findTemplate templates group.monster = some t)
    (hne : t.name ≠ "")
    (hi : i < group.count) :
    (load_group templates group reg).1.length = group.count ∧
    (load_group templates group reg).1[i]?.map Monster.name
      = some (if startsLower t.name then t.name ++ toString (i + 1)
              else t.name) := by
  have hms : instantiateGroup templates group
      = List.replicate group.count (Monster.ofTemplate t) := by
    simp [instantiateGroup, ht]
  refine ⟨by simp [load_group, hms, registerFrom_fst_length], ?_⟩
  have hget : (load_group templates group reg).1[i]?
      = some (processMonster group group.count i (Monster.ofTemplate t)) := by
    simp [load_group, hms, registerFrom_fst_get, List.getElem?_replicate, hi]
  rw [hget]
  have hn := processMonster_name group group.count i (Monster.ofTemplate t)
  have : (Monster.ofTemplate t).name = t.name := rfl
  rw [this] at hn
  simp [hn]

/-- Witness for C4: three goblins; the third is registered as "goblin3". -/
theorem instance_naming_witness :
    findTemplate [tGoblin] gGoblin.monster = some tGoblin ∧
    tGoblin.name ≠ "" ∧
    2 < gGoblin.count ∧
    ((load_group [tGoblin] gGoblin []).1.length = gGoblin.count ∧
     (load_group [tGoblin] gGoblin []).1[2]?.map Monster.name
       = some (if startsLower tGoblin.name then tGoblin.name ++ toString (2 + 1)
               else tGoblin.name)) := by
  refine ⟨by decide, by decide, by decide, ?_⟩
  exact instance_naming [tGoblin] gGoblin [] tGoblin 2 (by decide) (by decide) (by decide)

/-- C9: every finalized instance is inserted into the registry keyed by its
possibly renamed name, later instances overwriting earlier entries with the
same key while untouched keys keep their old values; in particular a
proper-named (non-lowercase) group with positive count leaves exactly one
registry entry under the template name, holding the last instance. -/
theorem registry_overwrite (templates : List MonsterTemplate) (group : EncGroup)
    (reg : List (String × Monster)) (t : MonsterTemplate) (name : String)
    (ht : findTemplate templates group.monster = some t)
    (hne : t.name ≠ "")
    (hreg : nodupKeys reg) :
    (dictGet (load_group templates group reg).2 name
      = match lastNamed (load_group templates group reg).1 name with
        | some m => some m
        | none => dictGet reg name) ∧
    (startsLower t.name = false → 0 < group.count →
      dictGet (load_group templates group reg).2 t.name
        = (load_group templates group reg).1.getLast? ∧
      countKey (load_group templates group reg).2 t.name = 1) := by
  have hms : instantiateGroup templates group
      = List.replicate group.count (Monster.ofTemplate t) := by
    simp [instantiateGroup, ht]
  have ha : ∀ nm, dictGet (load_group templates group reg).2 nm
      = match lastNamed (load_group templates group reg).1 nm with
        | some m => some m
        | none => dictGet reg nm := by
    intro nm
    simp only [load_group]
    rw [registerFrom_snd_foldl, dictGet_foldl_insert]
  refine ⟨ha name, ?_⟩
  intro hsl hcount
  have hnames : ∀ x ∈ (load_group templates group reg).1, x.name = t.name := by
    intro x hx
    simp only [load_group] at hx
    obtain ⟨i0, m0, hm0, he⟩ := registerFrom_fst_mem group _ _ 0 reg x hx
    rw [hms] at hm0
    have hm0t : m0 = Monster.ofTemplate t := List.eq_of_mem_replicate hm0
    subst hm0t
    rw [he, processMonster_name]
    have hsl2 : startsLower (Monster.ofTemplate t).name = false := hsl
    simp [hsl2, hsl, Monster.ofTemplate]
  have hflt : (load_group templates group reg).1.filter (fun m => m.name == t.name)
      = (load_group templates group reg).1 := by
    rw [List.filter_eq_self]
    intro a hax
    simp [hnames a hax]
  have hlast : lastNamed (load_group templates group reg).1 t.name
      = (load_group templates group reg).1.getLast? := by
    unfold lastNamed
    rw [hflt]
  have hlen : (load_group templates group reg).1.length = group.count := by
    simp [load_group, hms, registerFrom_fst_length]
  have hnil : (load_group templates group reg).1 ≠ [] := by
    intro h
    rw [h] at hlen
    simp at hlen
    omega
  obtain ⟨y, hy⟩ : ∃ y, (load_group templates group reg).1.getLast? = some y :=
    ⟨_, List.getLast?_eq_getLast _ hnil⟩
  have hget : dictGet (load_group templates group reg).2 t.name = some y := by
    rw [ha t.name, hlast, hy]
  have hnd : nodupKeys (load_group templates group reg).2 := by
    simp only [load_group]
    exact nodupKeys_registerFrom group _ _ 0 reg hreg
  refine ⟨by rw [hget, hy], ?_⟩
  exact countKey_eq_one t.name y _ hnd hget

/-- Witness for C9: two Orc Chieftains collide on the one key
"Orc Chieftain", which holds the last instance. -/
theorem registry_overwrite_witness :
    findTemplate [tChief] gChief.monster = some tChief ∧
    tChief.name ≠ "" ∧
    nodupKeys ([] : List (String × Monster)) ∧
    startsLower tChief.name = false ∧
    0 < gChief.count ∧
    (dictGet (load_group [tChief] gChief []).2 tChief.name
       = (load_group [tChief] gChief []).1.getLast? ∧
     countKey (load_group [tChief] gChief []).2 tChief.name = 1) ∧
    (dictGet (load_group [tChief] gChief []).2 "Orc Chieftain"
      = match lastNamed (load_group [tChief] gChief []).1 "Orc Chieftain" with
        | some m => some m
        | none => dictGet ([] : List (String × Monster)) "Orc Chieftain") := by
  have h := registry_overwrite [tChief] gChief [] tChief "Orc Chieftain"
    (by decide) (by decide) (by simp [nodupKeys])
  exact ⟨by decide, by decide, by simp [nodupKeys], by decide, by decide,
    h.2 (by decide) (by decide), h.1⟩

/-- Looking up a roll after adding a combatant: the added roll's group gains
the combatant at its end (the group is created when absent), every other
roll's group is untouched. -/
theorem findGroup_add_combatant (roll : Int) (c : String) :
    ∀ (s : List (Int × List String)) (r : Int),
      findGroup r (add_combatant roll c s)
        = if r = roll then some (((findGroup roll s).getD []) ++ [c])
          else findGroup r s := by
  intro s
  induction s with
  | nil =>
      intro r
      by_cases h : r = roll
      · subst h; simp [add_combatant, findGroup]
      · have h2 : ¬ roll = r := fun hh => h hh.symm
        simp [add_combatant, findGroup, h, h2]
  | cons p rest ih =>
      obtain ⟨r0, g⟩ := p
      intro r
      by_cases h0 : r0 = roll
      · subst h0
        by_cases h : r = r0
        · subst h; simp [add_combatant, findGroup]
        · have h2 : ¬ r0 = r := fun hh => h hh.symm
          simp [add_combatant, findGroup, h, h2]
      · by_cases h : r = r0
        · subst h
          simp [add_combatant, findGroup, h0]
        · have h2 : ¬ r0 = r := fun hh => h hh.symm
          simp [add_combatant, findGroup, h0, h2, ih]

/-- Adding a combatant either keeps the roll keys (group already present)
or appends the new roll at the end. -/
theorem keys_add_combatant (roll : Int) (c : String) :
    ∀ s : List (Int × List String),
      (add_combatant roll c s).map Prod.fst
        = if roll ∈ s.map Prod.fst then s.map Prod.fst
          else s.map Prod.fst ++ [roll] := by
  intro s
  induction s with
  | nil => simp [add_combatant]
  | cons p rest ih =>
      obtain ⟨r0, g⟩ := p
      by_cases h0 : r0 = roll
      · subst h0; simp [add_combatant]
      · have h1 : ¬ roll = r0 := fun h => h0 h.symm
        by_cases h2 : roll ∈ rest.map Prod.fst <;>
          simp [add_combatant, h0, h1, h2, ih]

/-- Adding a combatant preserves distinctness of the roll keys. -/
theorem nodupKeys_add_combatant (roll : Int) (c : String)
    (s : List (Int × List String)) (h : (s.map Prod.fst).Nodup) :
    ((add_combatant roll c s).map Prod.fst).Nodup := by
  rw [keys_add_combatant]
  by_cases hk : roll ∈ s.map Prod.fst
  · simpa [hk] using h
  · simp only [hk, if_false]
    rw [List.nodup_append]
    exact ⟨h, List.nodup_singleton roll, by simpa using hk⟩

/-- Appending one (combatant, roll) pair extends exactly that roll's group. -/
theorem groupOf_concat (r : Int) (pairs : List (String × Int)) (p : String × Int) :
    groupOf r (pairs ++ [p])
      = groupOf r pairs ++ (if p.2 = r then [p.1] else []) := by
  unfold groupOf
  rw [List.filter_append, List.map_append]
  congr 1
  by_cases h : p.2 = r <;> simp [List.filter_cons, beq_iff_eq, h]

/-- One step of the manager-state invariant: after adding pair `p` to a
state that groups exactly the pairs of `pre`, the state groups exactly the
pairs of `pre ++ [p]`, with keys still distinct. -/
theorem stateInv_step (s : List (Int × List String)) (pre : List (String × Int))
    (p : String × Int)
    (hnd : (s.map Prod.fst).Nodup)
    (hfg : ∀ r, findGroup r s
      = if groupOf r pre = [] then none else some (groupOf r pre)) :
    ((add_combatant p.2 p.1 s).map Prod.fst).Nodup ∧
    ∀ r, findGroup r (add_combatant p.2 p.1 s)
      = if groupOf r (pre ++ [p]) = [] then none
        else some (groupOf r (pre ++ [p])) := by
  refine ⟨nodupKeys_add_combatant _ _ _ hnd, ?_⟩
  intro r
  rw [findGroup_add_combatant, groupOf_concat]
  by_cases h : r = p.2
  · subst h
    rw [if_pos rfl, hfg]
    by_cases hg : groupOf p.2 pre = []
    · simp [hg]
    · simp [hg]
  · have h2 : ¬ p.2 = r := fun hh => h hh.symm
    rw [if_neg h, hfg]
    simp [h2]

/-- The manager-state invariant holds after adding any list of pairs on top
of a state that groups exactly the pairs of `pre`. -/
theorem addAll_inv :
    ∀ (pairs : List (String × Int)) (s : List (Int × List String))
      (pre : List (String × Int)),
      (s.map Prod.fst).Nodup →
      (∀ r, findGroup r s
        = if groupOf r pre = [] then none else some (groupOf r pre)) →
      ((addAll s pairs).map Prod.fst).Nodup ∧
      ∀ r, findGroup r (addAll s pairs)
        = if groupOf r (pre ++ pairs) = [] then none
          else some (groupOf r (pre ++ pairs)) := by
  intro pairs
  induction pairs with
  | nil =>
      intro s pre h1 h2
      constructor
      · simpa [addAll] using h1
      · intro r
        simpa [addAll] using h2 r
  | cons p rest ih =>
      intro s pre h1 h2
      have hstep := stateInv_step s pre p h1 h2
      have hrec := ih (add_combatant p.2 p.1 s) (pre ++ [p]) hstep.1 hstep.2
      have ha : addAll s (p :: rest) = addAll (add_combatant p.2 p.1 s) rest := rfl
      rw [ha]
      constructor
      · exact hrec.1
      · intro r
        have := hrec.2 r
        simpa [List.append_assoc] using this

/-- The manager built from scratch groups exactly the added pairs. -/
theorem addAll_nil_inv (pairs : List (String × Int)) :
    ((addAll [] pairs).map Prod.fst).Nodup ∧
    ∀ r, findGroup r (addAll [] pairs)
      = if groupOf r pairs = [] then none else some (groupOf r pairs) := by
  have h := addAll_inv pairs [] [] (by simp)
    (fun r => by simp [findGroup, groupOf])
  constructor
  · exact h.1
  · intro r
    simpa using h.2 r

/-- Descending insertion is a permutation of consing. -/
theorem insertDesc_perm (p : Int × List String) :
    ∀ l : List (Int × List String), (insertDesc p l).Perm (p :: l) := by
  intro l
  induction l with
  | nil => simp [insertDesc]
  | cons q rest ih =>
      by_cases h : q.1 ≤ p.1
      · simp [insertDesc, h]
      · simp only [insertDesc, if_neg h]
        exact List.Perm.trans (List.Perm.cons q ih) (List.Perm.swap p q rest)

/-- Descending insertion sort permutes its input. -/
theorem sortDesc_perm : ∀ l : List (Int × List String), (sortDesc l).Perm l := by
  intro l
  induction l with
  | nil => simp [sortDesc]
  | cons p rest ih =>
      exact List.Perm.trans (insertDesc_perm p (sortDesc rest)) (List.Perm.cons p ih)

/-- Descending insertion keeps the list sorted by non-increasing roll. -/
theorem insertDesc_pairwise (p : Int × List String) :
    ∀ l, List.Pairwise (fun a b : Int × List String => b.1 ≤ a.1) l →
      List.Pairwise (fun a b : Int × List String => b.1 ≤ a.1) (insertDesc p l) := by
  intro l
  induction l with
  | nil => intro h; simp [insertDesc]
  | cons q rest ih =>
      intro h
      have h2 := List.pairwise_cons.mp h
      by_cases hq : q.1 ≤ p.1
      · simp only [insertDesc, if_pos hq]
        rw [List.pairwise_cons]
        refine ⟨?_, h⟩
        intro x hx
        rcases List.mem_cons.mp hx with hx | hx
        · rw [hx]; exact hq
        · exact le_trans (h2.1 x hx) hq
      · simp only [insertDesc, if_neg hq]
        rw [List.pairwise_cons]
        refine ⟨?_, ih h2.2⟩
        intro x hx
        have hx2 := (insertDesc_perm p rest).mem_iff.mp hx
        rcases List.mem_cons.mp hx2 with hx2 | hx2
        · rw [hx2]; exact le_of_not_le hq
        · exact h2.1 x hx2

/-- Descending insertion sort yields a non-increasing roll sequence. -/
theorem sortDesc_pairwise :
    ∀ l : List (Int × List String),
      List.Pairwise (fun a b : Int × List String => b.1 ≤ a.1) (sortDesc l) := by
  intro l
  induction l with
  | nil => simp [sortDesc]
  | cons p rest ih => exact insertDesc_pairwise p (sortDesc rest) ih

/-- A non-increasing roll sequence with pairwise distinct rolls is strictly
decreasing. -/
theorem pairwise_strict_of_nodup :
    ∀ l : List (Int × List String),
      List.Pairwise (fun a b : Int × List String => b.1 ≤ a.1) l →
      (l.map Prod.fst).Nodup →
      List.Pairwise (fun a b : Int × List String => b.1 < a.1) l := by
  intro l
  induction l with
  | nil => intro _ _; simp
  | cons p rest ih =>
      intro hp hn
      have hp2 := List.pairwise_cons.mp hp
      rw [List.map_cons, List.nodup_cons] at hn
      rw [List.pairwise_cons]
      refine ⟨?_, ih hp2.2 hn.2⟩
      intro x hx
      have hle := hp2.1 x hx
      have hne : x.1 ≠ p.1 := by
        intro he
        exact hn.1 (he ▸ List.mem_map_of_mem Prod.fst hx)
      exact lt_of_le_of_ne hle hne

/-- With pairwise distinct roll keys, membership of an entry is the same as
the roll looking up to exactly that group. -/
theorem mem_iff_findGroup :
    ∀ (l : List (Int × List String)) (r : Int) (g : List String),
      (l.map Prod.fst).Nodup →
      ((r, g) ∈ l ↔ findGroup r l = some g) := by
  intro l
  induction l with
  | nil => intro r g _; simp [findGroup]
  | cons p rest ih =>
      obtain ⟨r0, g0⟩ := p
      intro r g hn
      rw [List.map_cons, List.nodup_cons] at hn
      by_cases h : r0 = r
      · subst h
        have hfr : findGroup r0 ((r0, g0) :: rest) = some g0 := by
          simp [findGroup]
        rw [hfr, List.mem_cons]
        constructor
        · rintro (he | hm)
          · rw [Prod.mk.injEq] at he
            rw [he.2]
          · exact absurd (List.mem_map_of_mem Prod.fst hm) (by simpa using hn.1)
        · intro hf
          rw [Option.some.injEq] at hf
          left
          rw [hf]
      · have hfr : findGroup r ((r0, g0) :: rest) = findGroup r rest := by
          simp [findGroup, h]
        rw [hfr, List.mem_cons, ih r g hn.2]
        constructor
        · rintro (he | hm)
          · exfalso
            rw [Prod.mk.injEq] at he
            exact h he.1.symm
          · exact hm
        · intro hf
          right
          exact hf

/-- C1: the computed turn order is strictly decreasing in roll value across
entries, and an entry (r, g) is present exactly when g is the nonempty list
of combatants added with roll r, in the order they were added — so every
added combatant appears in exactly one entry's group and equal rolls share
one entry in insertion order, however many distinct-roll combatants are
interleaved. -/
theorem turn_order_correct (pairs : List (String × Int)) (r : Int)
    (g : List String) :
    List.Pairwise (fun a b : Int × List String => b.1 < a.1)
      (computeTurnOrder pairs) ∧
    ((r, g) ∈ computeTurnOrder pairs ↔ (g = groupOf r pairs ∧ g ≠ [])) := by
  obtain ⟨hnd, hfg⟩ := addAll_nil_inv pairs
  have hperm := sortDesc_perm (addAll [] pairs)
  have hndo : ((computeTurnOrder pairs).map Prod.fst).Nodup := by
    unfold computeTurnOrder
    exact ((hperm.map Prod.fst).nodup_iff).mpr hnd
  constructor
  · exact pairwise_strict_of_nodup _ (sortDesc_pairwise _) hndo
  · unfold computeTurnOrder
    rw [hperm.mem_iff, mem_iff_findGroup _ r g hnd, hfg r]
    by_cases hgo : groupOf r pairs = []
    · simp [hgo]
    · rw [if_neg hgo, Option.some.injEq]
      constructor
      · intro h
        refine ⟨h.symm, ?_⟩
        rw [← h]
        exact hgo
      · exact fun h => h.1.symm

/-- Division and remainder of the successor when the remainder is about to
wrap: a fresh round begins. -/
theorem succ_div_mod_wrap (k n : Nat) (hn : 0 < n) (hmn : k % n + 1 = n) :
    (k + 1) / n = k / n + 1 ∧ (k + 1) % n = 0 := by
  have hdm := Nat.div_add_mod k n
  have he : k + 1 = n * (k / n + 1) := by
    rw [Nat.mul_add, Nat.mul_one]
    omega
  constructor
  · rw [he, Nat.mul_div_cancel_left _ hn]
  · rw [he]
    exact Nat.mul_mod_right n _

/-- Division and remainder of the successor when the remainder does not
wrap: the round continues. -/
theorem succ_div_mod_stay (k n : Nat) (hn : 0 < n) (hmn : k % n + 1 < n) :
    (k + 1) / n = k / n ∧ (k + 1) % n = k % n + 1 := by
  have hdm := Nat.div_add_mod k n
  have he : k + 1 = n * (k / n) + (k % n + 1) := by omega
  constructor
  · rw [he, Nat.mul_add_div hn, Nat.div_eq_of_lt hmn, Nat.add_zero]
  · rw [he, Nat.mul_add_mod]
    exact Nat.mod_eq_of_lt hmn

/-- Closed form of the cursor after k+1 advances on a nonempty order: the
round counter is k/n + 1 and the events still to yield this round are the
flattened order with the first k%n + 1 dropped. -/
theorem cursorAfter_closed (order : List (Int × List String))
    (h : flattenOrder order ≠ []) :
    ∀ k : Nat,
      cursorAfter order (k + 1)
        = { round := k / (flattenOrder order).length + 1,
            remaining := (flattenOrder order).drop
              (k % (flattenOrder order).length + 1) } := by
  have hn : 0 < (flattenOrder order).length := List.length_pos.mpr h
  intro k
  induction k with
  | zero =>
      rcases hflat : flattenOrder order with _ | ⟨q, qs⟩
      · exact absurd hflat h
      · simp [cursorAfter, stepTurns, hflat]
  | succ k0 ih =>
      have hstep : cursorAfter order (k0 + 1 + 1)
          = (stepTurns order (cursorAfter order (k0 + 1))).1 := rfl
      rw [hstep, ih]
      have hmlt : k0 % (flattenOrder order).length < (flattenOrder order).length :=
        Nat.mod_lt k0 hn
      by_cases hmn : k0 % (flattenOrder order).length + 1 = (flattenOrder order).length
      · obtain ⟨hdiv, hmod⟩ := succ_div_mod_wrap k0 _ hn hmn
        have hdrop : (flattenOrder order).drop
            (k0 % (flattenOrder order).length + 1) = [] := by
          rw [hmn]
          exact List.drop_length _
        rcases hflat : flattenOrder order with _ | ⟨q, qs⟩
        · exact absurd hflat h
        · rw [hflat] at hdrop hdiv hmod
          simp only [List.length_cons] at hdrop hdiv hmod
          simp [stepTurns, hflat, hdrop, hdiv, hmod]
      · have hmn2 : k0 % (flattenOrder order).length + 1
            < (flattenOrder order).length := by omega
        obtain ⟨hdiv, hmod⟩ := succ_div_mod_stay k0 _ hn hmn2
        have hdrop := List.drop_eq_getElem_cons hmn2
        rw [hdrop]
        simp [stepTurns, hdiv, hmod]

/-- Closed form of the k+1-st advance on a nonempty order: round k/n + 1,
yielding flattened event number k%n. -/
theorem nthAdvance_closed (order : List (Int × List String))
    (h : flattenOrder order ≠ []) (k : Nat) :
    nthAdvance order (k + 1)
      = ((flattenOrder order)[k % (flattenOrder order).length]?).map
          (fun p => (k / (flattenOrder order).length + 1, p.1, p.2)) := by
  have hn : 0 < (flattenOrder order).length := List.length_pos.mpr h
  cases k with
  | zero =>
      rcases hflat : flattenOrder order with _ | ⟨q, qs⟩
      · exact absurd hflat h
      · simp [nthAdvance, cursorAfter, stepTurns, hflat]
  | succ k0 =>
      have hstep : nthAdvance order (k0 + 1 + 1)
          = (stepTurns order (cursorAfter order (k0 + 1))).2 := rfl
      rw [hstep, cursorAfter_closed order h k0]
      have hmlt : k0 % (flattenOrder order).length < (flattenOrder order).length :=
        Nat.mod_lt k0 hn
      by_cases hmn : k0 % (flattenOrder order).length + 1 = (flattenOrder order).length
      · obtain ⟨hdiv, hmod⟩ := succ_div_mod_wrap k0 _ hn hmn
        have hdrop : (flattenOrder order).drop
            (k0 % (flattenOrder order).length + 1) = [] := by
          rw [hmn]
          exact List.drop_length _
        rcases hflat : flattenOrder order with _ | ⟨q, qs⟩
        · exact absurd hflat h
        · rw [hflat] at hdrop hdiv hmod
          simp only [List.length_cons] at hdrop hdiv hmod
          simp [stepTurns, hflat, hdrop, hdiv, hmod]
      · have hmn2 : k0 % (flattenOrder order).length + 1
            < (flattenOrder order).length := by omega
        obtain ⟨hdiv, hmod⟩ := succ_div_mod_stay k0 _ hn hmn2
        have hdrop := List.drop_eq_getElem_cons hmn2
        rw [hdrop]
        have hsome : (flattenOrder order)[(k0 + 1) % (flattenOrder order).length]?
            = some ((flattenOrder order)[k0 % (flattenOrder order).length + 1]) := by
          rw [hmod]
          exact List.getElem?_eq_getElem hmn2
        simp [stepTurns, hdiv, hsome]

/-- C2: on a non-empty turn order with n total combatants, the k+1-st
advance yields round k/n + 1 with the k%n-th event of the flattened order —
entries visited in the stored (descending-roll) order, members in stored
order, round starting at 1; in particular the n-th advance yields the last
flattened event (the last combatant of the last entry) still in round 1,
and the (n+1)-st advance yields the first flattened event (the first
combatant of the first entry) with round 2. -/
theorem turn_cycling (order : List (Int × List String)) (k : Nat)
    (h : flattenOrder order ≠ []) :
    nthAdvance order (k + 1)
      = ((flattenOrder order)[k % (flattenOrder order).length]?).map
          (fun p => (k / (flattenOrder order).length + 1, p.1, p.2)) ∧
    nthAdvance order (flattenOrder order).length
      = ((flattenOrder order).getLast?).map (fun p => (1, p.1, p.2)) ∧
    nthAdvance order ((flattenOrder order).length + 1)
      = ((flattenOrder order).head?).map (fun p => (2, p.1, p.2)) := by
  have hn : 0 < (flattenOrder order).length := List.length_pos.mpr h
  refine ⟨nthAdvance_closed order h k, ?_, ?_⟩
  · have hsub : (flattenOrder order).length
        = ((flattenOrder order).length - 1) + 1 := by omega
    rw [hsub, nthAdvance_closed order h]
    have hm : ((flattenOrder order).length - 1) % (flattenOrder order).length
        = (flattenOrder order).length - 1 := Nat.mod_eq_of_lt (by omega)
    have hd : ((flattenOrder order).length - 1) / (flattenOrder order).length
        = 0 := Nat.div_eq_of_lt (by omega)
    rw [hm, hd, List.getLast?_eq_getElem? (flattenOrder order)]
  · rw [nthAdvance_closed order h]
    have hm : (flattenOrder order).length % (flattenOrder order).length = 0 :=
      Nat.mod_self _
    have hd : (flattenOrder order).length / (flattenOrder order).length = 1 :=
      Nat.div_self hn
    rw [hm, hd, List.head?_eq_getElem? (flattenOrder order)]

/-- Witness for C2: the spec's scenario C(20), A(15), B(15); the fourth
advance (k = 3) wraps to round 2 on C, the order's three-advance round 1
pass ending on B. -/
theorem turn_cycling_witness :
    flattenOrder ordABC ≠ [] ∧
    (nthAdvance ordABC (3 + 1)
      = ((flattenOrder ordABC)[3 % (flattenOrder ordABC).length]?).map
          (fun p => (3 / (flattenOrder ordABC).length + 1, p.1, p.2)) ∧
     nthAdvance ordABC (flattenOrder ordABC).length
      = ((flattenOrder ordABC).getLast?).map (fun p => (1, p.1, p.2)) ∧
     nthAdvance ordABC ((flattenOrder ordABC).length + 1)
      = ((flattenOrder ordABC).head?).map (fun p => (2, p.1, p.2))) :=
  ⟨by decide, turn_cycling ordABC 3 (by decide)⟩
